import Mathlib

/-!
Verification development for the `rag-module` repository.

JavaScript strings are modelled as `List Char` where character-level
processing matters (the chunker), and as Lean `String` elsewhere.
JavaScript numbers used as lengths and counters are modelled as `Nat`;
the 32-bit signed integers produced by JavaScript bitwise operators are
modelled as `Int` with explicit reduction into `[-2^31, 2^31)`.
Embedding vectors (arrays of floats) are modelled as `List ℚ` where only
structural behaviour matters, and `List ℝ` for `cosineSimilarity`, whose
specification is about real-valued arithmetic.  Fallible JavaScript code
(functions that may `throw`) is modelled with `Except String`.
-/

set_option maxRecDepth 16384

deriving instance DecidableEq for Except

namespace RagModule

/-! ## Chunker (src/chunker.js) -/

/-- `DEFAULT_CHUNK_SIZE` from src/chunker.js. -/
def DEFAULT_CHUNK_SIZE : Nat := 800

/-- `DEFAULT_OVERLAP` from src/chunker.js. -/
def DEFAULT_OVERLAP : Nat := 200

/-- `MIN_CHUNK_SIZE` from src/chunker.js. -/
def MIN_CHUNK_SIZE : Nat := 100

/-- The options object accepted by `chunkText`; absent fields are `none`. -/
structure ChunkOptions where
  chunkSize : Option Nat := none
  overlap : Option Nat := none
  minChunkSize : Option Nat := none
deriving DecidableEq

/-- JavaScript `x || d` on an optional number: `undefined` and `0` are falsy. -/
def jsOr (o : Option Nat) (d : Nat) : Nat :=
  match o with
  | some n => if n = 0 then d else n
  | none => d

/-- Worker for `collapseWs`; the flag records whether we are inside a
whitespace run that has already emitted its single `' '`. -/
def collapseWsAux : Bool → List Char → List Char
  | _, [] => []
  | inRun, c :: rest =>
    if c.isWhitespace then
      if inRun then collapseWsAux true rest
      else ' ' :: collapseWsAux true rest
    else c :: collapseWsAux false rest

/-- `text.replace(/\s+/g, ' ')`: collapse every whitespace run to one space. -/
def collapseWs (l : List Char) : List Char :=
  collapseWsAux false l

/-- JavaScript `String.prototype.trim` on a character list. -/
def jsTrim (l : List Char) : List Char :=
  ((l.dropWhile Char.isWhitespace).reverse.dropWhile Char.isWhitespace).reverse

/-- The cleaning step of `chunkText`: `text.replace(/\s+/g, ' ').trim()`. -/
def cleanText (l : List Char) : List Char :=
  jsTrim (collapseWs l)

/-- Terminal punctuation recognised by the sentence splitter. -/
def isTerminal (c : Char) : Bool :=
  c = '.' ∨ c = '!' ∨ c = '?'

/-- A sentence boundary of `/(?<=[.!?])\s+/`: a terminal character followed
by whitespace. -/
def sentenceCut (c : Char) (rest : List Char) : Bool :=
  isTerminal c && (match rest with | c2 :: _ => c2.isWhitespace | [] => false)

/-- Worker for `splitSentences`: cut after `.`/`!`/`?` followed by whitespace,
consuming the whitespace run, i.e. `text.split(/(?<=[.!?])\s+/)`.  The flag
records that we are inside the separator's whitespace run. -/
def splitSentencesAux : Bool → List Char → List Char → List (List Char)
  | _, [], acc => [acc.reverse]
  | inSep, c :: rest, acc =>
    if inSep && c.isWhitespace then
      splitSentencesAux true rest acc
    else if sentenceCut c rest then
      (acc.reverse ++ [c]) :: splitSentencesAux true rest []
    else
      splitSentencesAux false rest (c :: acc)

/-- `splitSentences` from src/chunker.js: split on sentence boundaries and
drop segments that are empty after trimming (the `filter(s => s.trim())`). -/
def splitSentences (l : List Char) : List (List Char) :=
  (splitSentencesAux false l []).filter (fun s => jsTrim s ≠ [])

/-- The mutable state of the sentence-packing loop in `chunkText`. -/
structure ChunkState where
  chunks : List (List Char)
  currentChunk : List Char
  currentSentences : List (List Char)
deriving DecidableEq

/-- The `for` loop of `chunkText` that walks `currentSentences` from the end
accumulating whole sentences whose total length fits within `overlap`.
The first list argument is `currentSentences` reversed. -/
def overlapLoop (overlap : Nat) :
    List (List Char) → List Char → List (List Char) → List Char × List (List Char)
  | [], ovText, ovSents => (ovText, ovSents)
  | s :: restRev, ovText, ovSents =>
    let test := s ++ ' ' :: ovText
    if test.length ≤ overlap then
      overlapLoop overlap restRev test (s :: ovSents)
    else
      (ovText, ovSents)

/-- One iteration of the sentence loop in `chunkText`. -/
def chunkStep (chunkSize overlap minChunkSize : Nat) (st : ChunkState) (s : List Char) :
    ChunkState :=
  if st.currentChunk.length + s.length + 1 > chunkSize then
    let chunks' :=
      if st.currentChunk.length ≥ minChunkSize then st.chunks ++ [jsTrim st.currentChunk]
      else st.chunks
    let ov := overlapLoop overlap st.currentSentences.reverse [] []
    { chunks := chunks', currentChunk := ov.1 ++ s, currentSentences := ov.2 ++ [s] }
  else
    { chunks := st.chunks
      currentChunk := st.currentChunk ++ (if st.currentChunk = [] then s else ' ' :: s)
      currentSentences := st.currentSentences ++ [s] }

/-- `chunks[chunks.length - 1] += x` for a non-empty chunk list. -/
def appendToLast : List (List Char) → List Char → List (List Char)
  | [], x => [x]
  | [a], x => [a ++ x]
  | a :: b :: rest, x => a :: appendToLast (b :: rest) x

/-- The post-loop finalisation of `chunkText`: emit or merge the trailing
fragment. -/
def chunkFinalize (minChunkSize : Nat) (st : ChunkState) : List (List Char) :=
  if st.currentChunk.length ≥ minChunkSize then
    st.chunks ++ [jsTrim st.currentChunk]
  else if st.chunks ≠ [] ∧ st.currentChunk.length > 0 then
    appendToLast st.chunks (' ' :: jsTrim st.currentChunk)
  else if st.currentChunk.length > 0 then
    st.chunks ++ [jsTrim st.currentChunk]
  else
    st.chunks

/-- `chunkText` from src/chunker.js. -/
def chunkText (text : List Char) (options : ChunkOptions) : List (List Char) :=
  let chunkSize := jsOr options.chunkSize DEFAULT_CHUNK_SIZE
  let overlap := jsOr options.overlap DEFAULT_OVERLAP
  let minChunkSize := jsOr options.minChunkSize MIN_CHUNK_SIZE
  let cleaned := cleanText text
  if cleaned.length ≤ chunkSize then [cleaned]
  else
    chunkFinalize minChunkSize
      ((splitSentences cleaned).foldl (chunkStep chunkSize overlap minChunkSize)
        ⟨[], [], []⟩)

/-! ## URL normalization (src/db.js, `RagDatabase.normalizeUrl`)

`new URL(url)` is modelled by a parser for `scheme://host[:port][/path][?query][#fragment]`
that lower-cases scheme and host, defaults the path to `/`, and splits the
query into key/value pairs, matching the WHATWG behaviour on the URLs of
interest.  Unparseable input yields `none`, matching the `catch` branch. -/

/-- `String.prototype.toLowerCase` (ASCII range, which covers the hosts,
paths and parameter names involved). -/
def jsToLower (s : String) : String :=
  String.mk (s.data.map Char.toLower)

/-- The components `new URL` exposes that `normalizeUrl` reads. -/
structure UrlParts where
  scheme : String
  host : String
  port : Option String := none
  path : String
  query : List (String × String) := []
  fragment : Option String := none
deriving DecidableEq

/-- The fixed denylist of tracking parameters in `normalizeUrl`. -/
def trackingParams : List String :=
  ["utm_source", "utm_medium", "utm_campaign", "utm_content",
   "fbclid", "igshid", "ref", "s", "t", "si", "feature"]

/-- The alias rewrite `if (parsed.hostname === 'twitter.com') parsed.hostname = 'x.com'`. -/
def canonHost (h : String) : String :=
  if h = "twitter.com" then "x.com" else h

/-- Character-list test that `p` begins the list (for `^`-anchored regexes). -/
def beginsWith : List Char → List Char → Bool
  | [], _ => true
  | _ :: _, [] => false
  | p :: ps, c :: cs => p = c && beginsWith ps cs

/-- `parsed.hostname.replace(/^www\./, '')`. -/
def stripWww (h : String) : String :=
  if beginsWith "www.".data h.data then String.mk (h.data.drop 4) else h

/-- `parsed.pathname.replace(/\/$/, '')`: drop one trailing slash. -/
def dropTrailingSlash (p : String) : String :=
  if p.data.getLast? = some '/' then String.mk p.data.dropLast else p

/-- Serialisation of the remaining search parameters (`parsed.search`). -/
def serializeQuery (q : List (String × String)) : String :=
  match q with
  | [] => ""
  | _ => "?" ++ String.intercalate "&" (q.map (fun kv => kv.1 ++ "=" ++ kv.2))

/-- `parsed.origin` as rebuilt from scheme, (possibly rewritten) host and port. -/
def urlOrigin (scheme host : String) (port : Option String) : String :=
  scheme ++ "://" ++ host ++ (match port with | some p => ":" ++ p | none => "")

/-- The body of `normalizeUrl` on a successfully parsed URL: delete tracking
parameters, rewrite `twitter.com` to `x.com`, strip a leading `www.`, rebuild
`origin + pathname-without-trailing-slash + search` (the fragment is dropped),
and lower-case the result. -/
def normalizeParts (u : UrlParts) : String :=
  let q := u.query.filter (fun kv => ¬ trackingParams.contains kv.1)
  let host := stripWww (canonHost u.host)
  (urlOrigin u.scheme host u.port ++ dropTrailingSlash u.path ++ serializeQuery q) |> jsToLower

/-- Split a character list at the first occurrence of `sep`. -/
def splitOnce (sep : Char) : List Char → List Char × Option (List Char)
  | [] => ([], none)
  | c :: rest =>
    if c = sep then ([], some rest)
    else
      let r := splitOnce sep rest
      (c :: r.1, r.2)

/-- Locate `://` and return the scheme characters and the remainder. -/
def splitScheme : List Char → Option (List Char × List Char)
  | [] => none
  | ':' :: '/' :: '/' :: rest => some ([], rest)
  | c :: rest =>
    match splitScheme rest with
    | some r => some (c :: r.1, r.2)
    | none => none

/-- Parse a query string (without the `?`) into key/value pairs. -/
def parseQuery : Option (List Char) → List (String × String)
  | none => []
  | some q =>
    (q.splitOn '&').filterMap (fun kv =>
      if kv = [] then none
      else
        let r := splitOnce '=' kv
        some (String.mk r.1, String.mk (r.2.getD [])))

/-- A model of `new URL(url)` restricted to `scheme://host[:port][/path][?query][#fragment]`. -/
def parseUrl (s : String) : Option UrlParts :=
  match splitScheme s.data with
  | none => none
  | some sr =>
    if sr.1 = [] then none
    else
      let rest := sr.2
      let notDelim := fun c => ¬ (c = '/' ∨ c = '?' ∨ c = '#')
      let auth := rest.takeWhile notDelim
      let afterAuth := rest.dropWhile notDelim
      if auth = [] then none
      else
        let hp := splitOnce ':' auth
        let notQf := fun c => ¬ (c = '?' ∨ c = '#')
        let pathCs := afterAuth.takeWhile notQf
        let afterPath := afterAuth.dropWhile notQf
        let qf : Option (List Char) × Option (List Char) :=
          match afterPath with
          | '?' :: r =>
            (some (r.takeWhile (fun c => c ≠ '#')),
             match r.dropWhile (fun c => c ≠ '#') with
             | '#' :: fr => some fr
             | _ => none)
          | '#' :: r => (none, some r)
          | _ => (none, none)
        some
          { scheme := jsToLower (String.mk sr.1)
            host := jsToLower (String.mk hp.1)
            port := hp.2.map String.mk
            path := if pathCs = [] then "/" else String.mk pathCs
            query := parseQuery qf.1
            fragment := qf.2.map String.mk }

/-- `normalizeUrl` from src/db.js: `null` for falsy input, the lower-cased raw
string when parsing fails, otherwise the normalised form. -/
def normalizeUrl (url : String) : Option String :=
  if url = "" then none
  else
    some (match parseUrl url with
      | some u => normalizeParts u
      | none => jsToLower url)

/-! ## Embedding provider (src/unnamed/part_001)

The two HTTP backends are modelled as oracles giving the outcome of each
attempt (`Nat → Except String (List ℚ)`, indexed by retry attempt); input
truncation to `MAX_INPUT_CHARS` happens inside those calls and is absorbed
by the oracle. -/

/-- `GEMINI_EMBEDDING_MODEL`. -/
def GEMINI_EMBEDDING_MODEL : String := "text-embedding-004"

/-- `OPENAI_EMBEDDING_MODEL`. -/
def OPENAI_EMBEDDING_MODEL : String := "text-embedding-3-small"

/-- `MAX_RETRIES`. -/
def MAX_RETRIES : Nat := 3

/-- `BATCH_SIZE`. -/
def BATCH_SIZE : Nat := 10

/-- The error thrown when no provider produced a non-empty vector. -/
def noEmbeddingMsg : String := "No embedding provider available or all providers failed"

/-- Result object of `embed`: `{ embedding, provider, model }`. -/
structure EmbedResult where
  embedding : List ℚ
  provider : String
  model : String
deriving DecidableEq

/-- JavaScript `ToInt32`: reduce an integer into `[-2^31, 2^31)`. -/
def toInt32 (n : Int) : Int :=
  (n + 2 ^ 31) % 2 ^ 32 - 2 ^ 31

/-- One character step of `EmbeddingCache.hash`:
`hash = ((hash << 5) - hash) + char; hash = hash & hash`.
`hash << 5` coerces to 32-bit before shifting and `hash & hash` coerces the
sum back to 32-bit. -/
def hashStep (h : Int) (c : Char) : Int :=
  toInt32 (toInt32 (h * 32) - h + c.toNat)

/-- The rolling 32-bit hash over a string used by `EmbeddingCache.hash`. -/
def jsHash (s : String) : Int :=
  s.data.foldl hashStep 0

/-- The cache key for a text under a preferred provider:
`hash(`${provider}:${text}`)` (its decimal string in JS; `Int.toString` is
injective so the integer itself serves as the key). -/
def cacheKeyHash (text provider : String) : Int :=
  jsHash (provider ++ ":" ++ text)

/-- `EmbeddingCache`: a JS `Map` in insertion order (oldest first) with a
capacity bound.  Keys are unique. -/
structure EmbeddingCache where
  entries : List (Int × EmbedResult)
  maxSize : Nat := 1000
deriving DecidableEq

/-- `EmbeddingCache.get`: on a hit, delete and re-insert the entry (moving it
to the most-recent end) and return it. -/
def cacheGet (c : EmbeddingCache) (k : Int) : Option EmbedResult × EmbeddingCache :=
  match c.entries.lookup k with
  | some v =>
    (some v, { c with entries := c.entries.filter (fun e => e.1 ≠ k) ++ [(k, v)] })
  | none => (none, c)

/-- `EmbeddingCache.set`: evict the oldest entry when at capacity, then
`Map.set` (replace in place if the key exists, else append). -/
def cacheSet (c : EmbeddingCache) (k : Int) (v : EmbedResult) : EmbeddingCache :=
  let entries := if c.entries.length ≥ c.maxSize then c.entries.drop 1 else c.entries
  if (entries.lookup k).isSome then
    { c with entries := entries.map (fun e => if e.1 = k then (k, v) else e) }
  else
    { c with entries := entries ++ [(k, v)] }

/-- `retryWithBackoff` (delays elided): run attempt `i`, and on failure retry
until the attempt budget is exhausted, rethrowing the last error.  The source
always calls it with `retries = MAX_RETRIES = 3`. -/
def retryAux (f : Nat → Except String (List ℚ)) : Nat → Nat → Except String (List ℚ)
  | i, 0 => f i
  | i, 1 => f i
  | i, k + 2 =>
    match f i with
    | .ok v => .ok v
    | .error _ => retryAux f (i + 1) (k + 1)

/-- `retryWithBackoff(fn, retries)` with the attempt outcomes given by `f`. -/
def retryWithBackoff (f : Nat → Except String (List ℚ)) (retries : Nat := MAX_RETRIES) :
    Except String (List ℚ) :=
  retryAux f 0 retries

/-- The provider configuration of `EmbeddingProvider`: whether each credential
is present, and the preferred provider name. -/
structure EmbedConfig where
  geminiKey : Bool
  openaiKey : Bool
  preferredProvider : String := "gemini"
deriving DecidableEq

/-- The final `if (!embedding || embedding.length === 0) throw ...` plus the
success return of `embed`. -/
def embedFinish (v : List ℚ) (provider model : String) : Except String EmbedResult :=
  if v = [] then .error noEmbeddingMsg else .ok ⟨v, provider, model⟩

/-- The provider-fallback logic of `embed` after a cache miss, given the
outcome of each provider's full retry chain.  Mirrors the source exactly:
the Gemini attempt for a Gemini-preferred config is wrapped in `try/catch`
(failure only logs a warning), the OpenAI fallback and the Gemini last resort
are *not* wrapped, and the guards test `!embedding`, which is `false` for an
empty array. -/
def embedCore (cfg : EmbedConfig) (gem oai : Except String (List ℚ)) :
    Except String EmbedResult :=
  let preferredGemini : Option (List ℚ) :=
    if cfg.preferredProvider = "gemini" ∧ cfg.geminiKey then
      match gem with
      | .ok v => some v
      | .error _ => none
    else none
  match preferredGemini with
  | some v => embedFinish v "gemini" GEMINI_EMBEDDING_MODEL
  | none =>
    if cfg.openaiKey then
      match oai with
      | .error e => .error e
      | .ok v => embedFinish v "openai" OPENAI_EMBEDDING_MODEL
    else if cfg.preferredProvider = "openai" ∧ cfg.geminiKey then
      match gem with
      | .error e => .error e
      | .ok v => embedFinish v "gemini" GEMINI_EMBEDDING_MODEL
    else
      .error noEmbeddingMsg

/-- `embed` without the cache layer: each provider runs through its own
retry chain. -/
def embedNoCache (cfg : EmbedConfig) (gemAttempts oaiAttempts : Nat → Except String (List ℚ)) :
    Except String EmbedResult :=
  embedCore cfg (retryWithBackoff gemAttempts) (retryWithBackoff oaiAttempts)

/-- `EmbeddingProvider.embed(text)`: cache lookup keyed by
`(preferred provider, text)` hash, then provider fallback, caching any
success.  The oracles take the text being embedded and the attempt index. -/
def embed (cfg : EmbedConfig)
    (gemOracle oaiOracle : String → Nat → Except String (List ℚ))
    (c : EmbeddingCache) (text : String) :
    Except String EmbedResult × EmbeddingCache :=
  let key := cacheKeyHash text cfg.preferredProvider
  match cacheGet c key with
  | (some r, c2) => (.ok r, c2)
  | (none, c2) =>
    match embedNoCache cfg (gemOracle text) (oaiOracle text) with
    | .ok r => (.ok r, cacheSet c2 key r)
    | .error e => (.error e, c2)

/-- `EmbeddingProvider.embedBatch(texts)` at the granularity used by `ingest`:
results in input order, failing when any single embedding fails.  The
grouping into `BATCH_SIZE`-sized `Promise.all` groups and the inter-group
pause affect scheduling and timing only: the value returned is the
order-preserving list of single-text results, and the call rejects exactly
when some `embed` rejects.  `embedOne` abstracts `this.embed`. -/
def embedBatch (embedOne : String → Except String EmbedResult) :
    List String → Except String (List EmbedResult)
  | [] => .ok []
  | t :: ts =>
    match embedOne t with
    | .error e => .error e
    | .ok r =>
      match embedBatch embedOne ts with
      | .error e => .error e
      | .ok rs => .ok (r :: rs)

/-- `cosineSimilarity` from src/unnamed/part_001, generic in the scalar type
with the square-root function passed in (instantiated with `Real.sqrt` in the
theorems): 0 on length mismatch or zero denominator, else the dot product
over the product of the Euclidean norms. -/
def cosineSimilarity {α : Type} [Field α] [DecidableEq α] (sqrt : α → α)
    (a b : List α) : α :=
  if a.length ≠ b.length then 0
  else
    let dotProduct := (List.zipWith (fun x y => x * y) a b).sum
    let normA := (a.map (fun x => x * x)).sum
    let normB := (b.map (fun x => x * x)).sum
    let denominator := sqrt normA * sqrt normB
    if denominator = 0 then 0 else dotProduct / denominator

/-- The sum of squares of a vector (`normA`/`normB` accumulators); the
Euclidean norm is its square root. -/
def sumSq {α : Type} [Field α] (a : List α) : α :=
  (a.map (fun x => x * x)).sum

/-- The dot-product accumulator of `cosineSimilarity`. -/
def dotL {α : Type} [Field α] (a b : List α) : α :=
  (List.zipWith (fun x y => x * y) a b).sum

/-! ## In-memory search ranking (src/rag.js, `RAG.search`, SQLite path) -/

/-- A chunk row joined with its source, scored against the query
(`{ ...chunk, similarity }`).  Similarities are modelled as rationals. -/
structure ScoredChunk where
  id : Nat
  source_id : Nat
  similarity : ℚ
deriving DecidableEq

/-- `results.sort((a, b) => b.similarity - a.similarity)`: JavaScript
`Array.prototype.sort` is stable (ECMAScript 2019), and with this comparator
it orders by descending similarity; modelled by a stable merge sort. -/
def sortBySimilarity (l : List ScoredChunk) : List ScoredChunk :=
  l.mergeSort (fun a b => b.similarity ≤ a.similarity)

/-- The `results.filter` with the `seenSources` set: keep a chunk iff its
source id has not been seen, then mark it seen. -/
def dedupeBySourceFilter (seen : List Nat) : List ScoredChunk → List ScoredChunk
  | [] => []
  | r :: rest =>
    if r.source_id ∈ seen then dedupeBySourceFilter seen rest
    else r :: dedupeBySourceFilter (r.source_id :: seen) rest

/-- The options object of `RAG.search`; absent fields are `none`. -/
structure SearchOptions where
  topK : Option Nat := none
  maxCharsPerResult : Option Nat := none
  dedupeBySource : Option Bool := none
deriving DecidableEq

/-- `const dedupeBySource = options.dedupeBySource !== false`. -/
def dedupeEnabled (o : SearchOptions) : Bool :=
  o.dedupeBySource ≠ some false

/-- The dedupe stage of `RAG.search` applied to the ranked results. -/
def searchPostFilter (o : SearchOptions) (results : List ScoredChunk) : List ScoredChunk :=
  if dedupeEnabled o then dedupeBySourceFilter [] results else results

/-- Modelled from the spec wording for comparison: "retain only the first
(highest-ranked) chunk per source id, preserving rank order". -/
def firstPerSource : List ScoredChunk → List ScoredChunk
  | [] => []
  | c :: rest =>
    c :: firstPerSource (rest.filter (fun d => d.source_id ≠ c.source_id))
termination_by l => l.length
decreasing_by
  exact Nat.lt_succ_of_le (List.Sublist.length_le (List.filter_sublist _))

/-! ## Database rows and the ingestion coordinator (src/db.js, src/rag.js)

The SQLite tables are modelled as row lists; the SHA-256 content hash is an
abstract parameter `hash : String → String` (every theorem holds for every
hash function).  Side effects of `ingest` are recorded as an event trace. -/

/-- A row of the `sources` table (the columns the claims are about). -/
structure SourceRow where
  id : Nat
  url : String
  url_normalized : Option String
  title : String
  source_type : String
  content_hash : String
deriving DecidableEq

/-- A row of the `chunks` table. -/
structure ChunkRow where
  source_id : Nat
  chunk_index : Nat
  content : String
  embedding : List ℚ
  provider : String
  model : String
deriving DecidableEq

/-- The database state. -/
structure Db where
  sources : List SourceRow
  chunks : List ChunkRow
  nextId : Nat
deriving DecidableEq

/-- `SELECT id FROM sources WHERE url_normalized = ?` (first match). -/
def findByUrl (db : Db) (nu : String) : Option SourceRow :=
  db.sources.find? (fun r => r.url_normalized = some nu)

/-- `SELECT id FROM sources WHERE content_hash = ?` (first match). -/
def findByHash (db : Db) (h : String) : Option SourceRow :=
  db.sources.find? (fun r => r.content_hash = h)

/-- `RagDatabase.sourceExists(url, content)`: the URL match is checked first,
then the content hash; `byUrl || byHash`. -/
def sourceExists (hash : String → String) (db : Db) (url content : String) :
    Option SourceRow :=
  let byUrl :=
    match normalizeUrl url with
    | some nu => findByUrl db nu
    | none => none
  match byUrl with
  | some r => some r
  | none => findByHash db (hash content)

/-- `RagDatabase.insertSource`: append a row, returning the new id. -/
def insertSource (hash : String → String) (db : Db)
    (url title sourceType content : String) : Nat × Db :=
  let id := db.nextId
  (id,
   { db with
     sources := db.sources ++
       [{ id := id, url := url, url_normalized := normalizeUrl url, title := title,
          source_type := sourceType, content_hash := hash content }]
     nextId := db.nextId + 1 })

/-- `RagDatabase.insertChunks`: insert all chunk rows with `chunk_index`
running from 0 in input order. -/
def insertChunks (db : Db) (sourceId : Nat) (cs : List (String × EmbedResult)) : Db :=
  { db with
    chunks := db.chunks ++
      cs.enum.map (fun p =>
        { source_id := sourceId, chunk_index := p.1, content := p.2.1,
          embedding := p.2.2.embedding, provider := p.2.2.provider,
          model := p.2.2.model }) }

/-- The object produced by the extraction collaborator. -/
structure Extracted where
  url : String
  title : String
  content : String
  excerpt : String
  sourceType : String
deriving DecidableEq

/-- The observable side effects of one `ingest` call, in order. -/
inductive Event
  | lockRemove
  | lockWrite
  | extractCall
  | chunkCall
  | embedBatchCall (texts : List String)
  | insertSourceRow
  | insertChunkRows
deriving DecidableEq

/-- The value returned by `ingest` (the `backend` field of the success object
is omitted). -/
inductive IngestResult
  | duplicate (sourceId : Nat)
  | success (sourceId : Nat) (title : String) (sourceType : String) (chunkCount : Nat)
deriving DecidableEq

/-- `LOCK_TIMEOUT = 15 * 60 * 1000` milliseconds. -/
def LOCK_TIMEOUT : Nat := 15 * 60 * 1000

/-- The error thrown by `acquireLock` under contention. -/
def contentionMsg : String := "Another ingestion is in progress"

/-- Process/filesystem state: the lock marker's mtime when present, plus the
database. -/
structure Sys where
  lock : Option Nat
  db : Db
deriving DecidableEq

/-- `RAG.acquireLock` at time `now` (ms): no-op on the async backend; fail if
a marker younger than `LOCK_TIMEOUT` exists; remove a stale marker; write the
marker (its mtime becomes `now`).  `age = now - mtime` clamps at 0, matching
the JS comparison for a marker dated in the future. -/
def acquireLock (now : Nat) (isAsync : Bool) (sys : Sys) :
    Except String (Sys × List Event) :=
  if isAsync then .ok (sys, [])
  else
    match sys.lock with
    | some mtime =>
      if now - mtime < LOCK_TIMEOUT then .error contentionMsg
      else .ok ({ sys with lock := some now }, [.lockRemove, .lockWrite])
    | none => .ok ({ sys with lock := some now }, [.lockWrite])

/-- `RAG.releaseLock`: remove the marker if present. -/
def releaseLock (isAsync : Bool) (sys : Sys) : Sys × List Event :=
  if isAsync then (sys, [])
  else
    match sys.lock with
    | some _ => ({ sys with lock := none }, [.lockRemove])
    | none => (sys, [])

/-- `RAG.ingest(input)`: acquire the lock (outside the `try`, so a contention
failure leaves everything untouched), extract, duplicate-check, chunk, embed
every chunk, then persist the source row and its chunk rows; the lock is
released in the `finally` on every other exit path.  `extractResult` is the
outcome of the extraction collaborator and `embedOne` the outcome of
`this.embedder.embed` per chunk text. -/
def ingest (now : Nat) (isAsync : Bool) (hash : String → String)
    (extractResult : Except String Extracted)
    (embedOne : String → Except String EmbedResult)
    (opts : ChunkOptions) (sys : Sys) :
    Except String IngestResult × Sys × List Event :=
  match acquireLock now isAsync sys with
  | .error e => (.error e, sys, [])
  | .ok (sys1, ev1) =>
    let body : Except String IngestResult × Db × List Event :=
      match extractResult with
      | .error e => (.error e, sys1.db, [.extractCall])
      | .ok ext =>
        match sourceExists hash sys1.db ext.url ext.content with
        | some row => (.ok (.duplicate row.id), sys1.db, [.extractCall])
        | none =>
          let chunkContents := (chunkText ext.content.data opts).map String.mk
          match embedBatch embedOne chunkContents with
          | .error e =>
            (.error e, sys1.db,
             [.extractCall, .chunkCall, .embedBatchCall chunkContents])
          | .ok results =>
            let ins := insertSource hash sys1.db ext.url ext.title ext.sourceType ext.content
            let db2 := insertChunks ins.2 ins.1 (chunkContents.zip results)
            (.ok (.success ins.1 ext.title ext.sourceType chunkContents.length),
             db2,
             [.extractCall, .chunkCall, .embedBatchCall chunkContents,
              .insertSourceRow, .insertChunkRows])
    let rel := releaseLock isAsync { lock := sys1.lock, db := body.2.1 }
    (body.1, rel.1, ev1 ++ body.2.2 ++ rel.2)

/-- Invariant carried through the sentence-packing loop for the chunk-size
bound: every emitted chunk and the chunk under construction stay within
`bound` characters. -/
def ChunkInv (bound : Nat) (st : ChunkState) : Prop :=
  (∀ c ∈ st.chunks, c.length ≤ bound) ∧ st.currentChunk.length ≤ bound

/-! ## Theorems -/

/-- **C4, counterexample.** The claim says `https://x.com/a/b/?utm_source=x`
and `https://www.twitter.com/a/b` normalize to the same key.  They do not:
the `twitter.com → x.com` rewrite tests the hostname before `www.` is
stripped, so `www.twitter.com` is left as `twitter.com`. -/
theorem normalizeUrl_www_twitter_counterexample :
    normalizeUrl "https://www.twitter.com/a/b" ≠ normalizeUrl "https://x.com/a/b/?utm_source=x"
    ∧ normalizeUrl "https://x.com/a/b/?utm_source=x" = some "https://x.com/a/b"
    ∧ normalizeUrl "https://www.twitter.com/a/b" = some "https://twitter.com/a/b" := by
  refine ⟨by decide, by decide, by decide⟩

/-- **C4, amended.** `https://x.com/a/b/?utm_source=x` normalizes to
`https://x.com/a/b` while `https://www.twitter.com/a/b` normalizes to
`https://twitter.com/a/b` (a different key: the alias rewrite applies only to
the exact host `twitter.com`, and runs before `www.`-stripping); and the
normalization removes denylisted tracking parameters, rewrites the exact
host `twitter.com` to `x.com`, and drops any fragment. -/
theorem normalizeUrl_amended :
    normalizeUrl "https://x.com/a/b/?utm_source=x" = some "https://x.com/a/b"
    ∧ normalizeUrl "https://www.twitter.com/a/b" = some "https://twitter.com/a/b"
    ∧ normalizeUrl "https://twitter.com/a/b" = some "https://x.com/a/b"
    ∧ (∀ u : UrlParts, u.host = "twitter.com" →
        normalizeParts u = normalizeParts { u with host := "x.com" })
    ∧ (∀ (u : UrlParts) (f : Option String),
        normalizeParts { u with fragment := f } = normalizeParts { u with fragment := none })
    ∧ (∀ (u : UrlParts) (k v : String), k ∈ trackingParams →
        normalizeParts { u with query := (k, v) :: u.query } = normalizeParts u) := by
  refine ⟨by decide, by decide, by decide, ?_, ?_, ?_⟩
  · intro u hu
    simp only [normalizeParts, hu]
    rfl
  · intro u f
    rfl
  · intro u k v hk
    simp [normalizeParts, List.filter_cons, hk]

/-- Witness for `normalizeUrl_amended` at concrete inputs. -/
theorem normalizeUrl_amended_witness :
    (({ scheme := "https", host := "twitter.com", path := "/q" } : UrlParts).host = "twitter.com"
      ∧ normalizeParts { scheme := "https", host := "twitter.com", path := "/q" } =
          normalizeParts { scheme := "https", host := "x.com", path := "/q" })
    ∧ ("utm_source" ∈ trackingParams
      ∧ normalizeParts
          { scheme := "https", host := "h.com", path := "/q",
            query := [("utm_source", "x")] } =
        normalizeParts { scheme := "https", host := "h.com", path := "/q", query := [] }) := by
  constructor
  · exact ⟨rfl, normalizeUrl_amended.2.2.2.1 _ rfl⟩
  · exact ⟨by decide,
      normalizeUrl_amended.2.2.2.2.2
        { scheme := "https", host := "h.com", path := "/q", query := [] }
        "utm_source" "x" (by decide)⟩

/-- **C3, counterexample.** With Gemini preferred and both keys configured,
when every Gemini attempt and every OpenAI attempt fails, `embed` does not
fail with the "no embedding available" error: the Gemini failure is caught,
but the OpenAI retry chain's own error propagates uncaught. -/
theorem embed_fallback_counterexample :
    embedNoCache ⟨true, true, "gemini"⟩
        (fun _ => .error "Gemini API error: 500 - g")
        (fun _ => .error "OpenAI API error: 500 - o")
      = .error "OpenAI API error: 500 - o"
    ∧ "OpenAI API error: 500 - o" ≠ noEmbeddingMsg := by
  exact ⟨rfl, by decide⟩

/-- **C3, amended.** The fallback chain as implemented: the retry helper
tries up to three attempts and rethrows the last error; with Gemini
preferred, a Gemini failure is caught and OpenAI is tried through its own
retry chain, whose failure propagates as its own error (never rewritten to
the "no embedding available" error); with OpenAI preferred, an OpenAI
failure propagates immediately and Gemini is not consulted; the Gemini
last resort runs only when the OpenAI key is absent; the "no embedding
available" error is raised exactly when no provider call threw and the
resulting vector is missing or empty. -/
theorem embed_fallback_amended :
    (∀ f : Nat → Except String (List ℚ),
      retryWithBackoff f MAX_RETRIES =
        (match f 0 with
         | .ok v => .ok v
         | .error _ =>
           match f 1 with
           | .ok v => .ok v
           | .error _ => f 2))
    ∧ (∀ v : List ℚ, ∀ o : Except String (List ℚ),
        embedCore ⟨true, true, "gemini"⟩ (.ok v) o =
          if v = [] then .error noEmbeddingMsg
          else .ok ⟨v, "gemini", GEMINI_EMBEDDING_MODEL⟩)
    ∧ (∀ (e₁ : String) (v : List ℚ),
        embedCore ⟨true, true, "gemini"⟩ (.error e₁) (.ok v) =
          if v = [] then .error noEmbeddingMsg
          else .ok ⟨v, "openai", OPENAI_EMBEDDING_MODEL⟩)
    ∧ (∀ e₁ e₂ : String,
        embedCore ⟨true, true, "gemini"⟩ (.error e₁) (.error e₂) = .error e₂)
    ∧ (∀ (g : Except String (List ℚ)) (e : String),
        embedCore ⟨true, true, "openai"⟩ g (.error e) = .error e)
    ∧ (∀ g o : Except String (List ℚ),
        embedCore ⟨true, false, "openai"⟩ g o =
          (match g with
           | .error e => .error e
           | .ok v =>
             if v = [] then .error noEmbeddingMsg
             else .ok ⟨v, "gemini", GEMINI_EMBEDDING_MODEL⟩))
    ∧ (∀ (p : String) (g o : Except String (List ℚ)),
        embedCore ⟨false, false, p⟩ g o = .error noEmbeddingMsg) := by
  refine ⟨?_, ?_, ?_, ?_, ?_, ?_, ?_⟩
  · intro f
    cases h0 : f 0 with
    | ok v => simp [retryWithBackoff, MAX_RETRIES, retryAux, h0]
    | error e =>
      cases h1 : f 1 <;> simp [retryWithBackoff, MAX_RETRIES, retryAux, h0, h1]
  · intro v o
    simp [embedCore, embedFinish]
  · intro e₁ v
    simp [embedCore, embedFinish]
  · intro e₁ e₂
    rfl
  · intro g e
    simp [embedCore]
  · intro g o
    cases g with
    | ok v => simp [embedCore, embedFinish]
    | error e => simp [embedCore]
  · intro p g o
    by_cases hp : p = "gemini" <;> by_cases hq : p = "openai" <;>
      simp [embedCore, hp, hq]

/-- **C8.** A second ingest started while the lock marker is younger than
`LOCK_TIMEOUT` fails immediately with the contention error, before any
extraction or write, leaving the marker and database untouched; a marker at
least `LOCK_TIMEOUT` old is removed and the call proceeds exactly as with no
marker (overwriting the marker), with the extra marker removal as the only
difference in observable effects. -/
theorem ingest_lock_contention (now mtime : Nat) (hash : String → String)
    (ex : Except String Extracted) (emb : String → Except String EmbedResult)
    (opts : ChunkOptions) (db : Db) :
    (now - mtime < LOCK_TIMEOUT →
      ingest now false hash ex emb opts ⟨some mtime, db⟩ =
        (.error contentionMsg, ⟨some mtime, db⟩, []))
    ∧ (LOCK_TIMEOUT ≤ now - mtime →
        acquireLock now false ⟨some mtime, db⟩ =
          .ok (⟨some now, db⟩, [.lockRemove, .lockWrite])
        ∧ (ingest now false hash ex emb opts ⟨some mtime, db⟩).1 =
            (ingest now false hash ex emb opts ⟨none, db⟩).1
        ∧ (ingest now false hash ex emb opts ⟨some mtime, db⟩).2.1 =
            (ingest now false hash ex emb opts ⟨none, db⟩).2.1
        ∧ (ingest now false hash ex emb opts ⟨some mtime, db⟩).2.2 =
            .lockRemove :: (ingest now false hash ex emb opts ⟨none, db⟩).2.2) := by
  constructor
  · intro h
    simp [ingest, acquireLock, h]
  · intro h
    have hnlt : ¬ (now - mtime < LOCK_TIMEOUT) := not_lt.mpr h
    refine ⟨by simp [acquireLock, hnlt], ?_, ?_, ?_⟩ <;>
      simp [ingest, acquireLock, hnlt]

/-- Witness for `ingest_lock_contention`: a fresh marker blocks, a stale
marker is replaced. -/
theorem ingest_lock_contention_witness :
    ((0 : Nat) - 0 < LOCK_TIMEOUT
      ∧ ingest 0 false (fun _ => "h") (.error "x") (fun _ => .error "y")
          ⟨none, none, none⟩ ⟨some 0, ⟨[], [], 0⟩⟩ =
        (.error contentionMsg, ⟨some 0, ⟨[], [], 0⟩⟩, []))
    ∧ (LOCK_TIMEOUT ≤ LOCK_TIMEOUT - 0
      ∧ acquireLock LOCK_TIMEOUT false ⟨some 0, ⟨[], [], 0⟩⟩ =
          .ok (⟨some LOCK_TIMEOUT, ⟨[], [], 0⟩⟩, [.lockRemove, .lockWrite])) := by
  constructor
  · exact ⟨by decide,
      (ingest_lock_contention 0 0 (fun _ => "h") (.error "x") (fun _ => .error "y")
        ⟨none, none, none⟩ ⟨[], [], 0⟩).1 (by decide)⟩
  · exact ⟨by decide,
      ((ingest_lock_contention LOCK_TIMEOUT 0 (fun _ => "h") (.error "x")
        (fun _ => .error "y") ⟨none, none, none⟩ ⟨[], [], 0⟩).2 (by decide)).1⟩

/-- **C1.** The duplicate check fires exactly when an existing source shares
the normalized URL or the content hash, and a duplicate ingest returns
`{status: duplicate, sourceId: existing id}` while writing nothing: the
database is unchanged and the only effects are the lock round-trip and the
extraction call — no chunking, no embedding, no inserts. -/
theorem ingest_duplicate_idempotent (now : Nat) (hash : String → String)
    (ext : Extracted) (emb : String → Except String EmbedResult)
    (opts : ChunkOptions) (db : Db) :
    ((sourceExists hash db ext.url ext.content).isSome ↔
      ∃ r ∈ db.sources,
        (normalizeUrl ext.url ≠ none ∧ r.url_normalized = normalizeUrl ext.url)
          ∨ r.content_hash = hash ext.content)
    ∧ ∀ row : SourceRow, sourceExists hash db ext.url ext.content = some row →
        ingest now false hash (.ok ext) emb opts ⟨none, db⟩ =
          (.ok (.duplicate row.id), ⟨none, db⟩,
           [.lockWrite, .extractCall, .lockRemove]) := by
  constructor
  · unfold sourceExists findByUrl findByHash
    cases hnu : normalizeUrl ext.url with
    | none =>
      simp only [hnu]
      rw [Option.isSome_iff_exists]
      constructor
      · rintro ⟨r, hr⟩
        have := List.mem_of_find?_eq_some hr
        have hp := List.find?_some hr
        exact ⟨r, this, Or.inr (by simpa using hp)⟩
      · rintro ⟨r, hr, h | h⟩
        · exact absurd h.1 (by simp)
        · have : (db.sources.find? (fun s => s.content_hash = hash ext.content)).isSome := by
            rw [List.find?_isSome]
            exact ⟨r, hr, by simpa using h⟩
          rwa [Option.isSome_iff_exists] at this
    | some nu =>
      simp only [hnu]
      cases hfu : db.sources.find? (fun r => r.url_normalized = some nu) with
      | some r =>
        simp only [hfu, Option.isSome_some, true_iff]
        refine ⟨r, List.mem_of_find?_eq_some hfu, Or.inl ⟨by simp, ?_⟩⟩
        simpa using List.find?_some hfu
      | none =>
        simp only [hfu]
        rw [Option.isSome_iff_exists]
        constructor
        · rintro ⟨r, hr⟩
          exact ⟨r, List.mem_of_find?_eq_some hr, Or.inr (by simpa using List.find?_some hr)⟩
        · rintro ⟨r, hr, h | h⟩
          · exfalso
            have := List.find?_eq_none.mp hfu r hr
            simp only [h.2] at this
            simp at this
          · have : (db.sources.find? (fun s => s.content_hash = hash ext.content)).isSome := by
              rw [List.find?_isSome]
              exact ⟨r, hr, by simpa using h⟩
            rwa [Option.isSome_iff_exists] at this
  · intro row hdup
    simp [ingest, acquireLock, releaseLock, hdup]

/-- Witness for `ingest_duplicate_idempotent`: a database holding a source
with content hash "c" short-circuits an ingest whose content hashes to "c". -/
theorem ingest_duplicate_idempotent_witness :
    sourceExists (fun _ => "c") ⟨[⟨7, "u", none, "t", "text", "c"⟩], [], 8⟩ "" "body"
      = some (⟨7, "u", none, "t", "text", "c"⟩ : SourceRow)
    ∧ ingest 5 false (fun _ => "c") (.ok ⟨"", "t2", "body", "e", "text"⟩)
        (fun _ => .error "boom") ⟨none, none, none⟩
        ⟨none, ⟨[⟨7, "u", none, "t", "text", "c"⟩], [], 8⟩⟩ =
      (.ok (.duplicate 7), ⟨none, ⟨[⟨7, "u", none, "t", "text", "c"⟩], [], 8⟩⟩,
       [.lockWrite, .extractCall, .lockRemove]) := by
  refine ⟨by decide, ?_⟩
  exact (ingest_duplicate_idempotent 5 (fun _ => "c") ⟨"", "t2", "body", "e", "text"⟩
    (fun _ => .error "boom") ⟨none, none, none⟩
    ⟨[⟨7, "u", none, "t", "text", "c"⟩], [], 8⟩).2 ⟨7, "u", none, "t", "text", "c"⟩ (by decide)

/-- **C9, counterexample.** The cache key is the 32-bit rolling hash of
`"provider:text"`, not the pair itself, and the hash collides: with Gemini
preferred, the pairs `(gemini, "Aa")` and `(gemini, "BB")` hash to the same
key, so after embedding `"Aa"` (vector `[1]`), embedding `"BB"` hits the
cache and returns `"Aa"`'s stored vector `[1]`, although the provider would
return `[2]` for `"BB"`. -/
theorem embed_cache_collision_counterexample :
    cacheKeyHash "Aa" "gemini" = cacheKeyHash "BB" "gemini"
    ∧ ("Aa" : String) ≠ "BB"
    ∧ (embed ⟨true, true, "gemini"⟩
        (fun t _ => if t = "Aa" then .ok [1] else .ok [2]) (fun _ _ => .error "x")
        (embed ⟨true, true, "gemini"⟩
          (fun t _ => if t = "Aa" then .ok [1] else .ok [2]) (fun _ _ => .error "x")
          ⟨[], 1000⟩ "Aa").2 "BB").1
      = .ok ⟨[1], "gemini", GEMINI_EMBEDDING_MODEL⟩
    ∧ embedNoCache ⟨true, true, "gemini"⟩ (fun _ => .ok [2]) (fun _ => .error "x")
      = .ok ⟨[2], "gemini", GEMINI_EMBEDDING_MODEL⟩ := by
  refine ⟨by decide, by decide, by decide, by decide⟩

/-- **C9, amended.** The cache is keyed by the 32-bit string hash of
`"preferredProvider:text"`: a cache hit occurs for a text exactly when an
entry under that hash key is stored, the hit returns that stored result
(refreshing its recency), and on a miss `embed` falls through to the
provider logic.  Distinct (provider, text) pairs share an entry exactly when
their key hashes collide, which does happen. -/
theorem embed_cache_amended :
    (∀ (cfg : EmbedConfig) (gemO oaiO : String → Nat → Except String (List ℚ))
        (c : EmbeddingCache) (t : String) (r : EmbedResult),
      c.entries.lookup (cacheKeyHash t cfg.preferredProvider) = some r →
      embed cfg gemO oaiO c t =
        (.ok r,
         { c with entries :=
            c.entries.filter (fun e => e.1 ≠ cacheKeyHash t cfg.preferredProvider)
              ++ [(cacheKeyHash t cfg.preferredProvider, r)] }))
    ∧ (∀ (cfg : EmbedConfig) (gemO oaiO : String → Nat → Except String (List ℚ))
        (c : EmbeddingCache) (t : String),
      c.entries.lookup (cacheKeyHash t cfg.preferredProvider) = none →
      (embed cfg gemO oaiO c t).1 = embedNoCache cfg (gemO t) (oaiO t)) := by
  constructor
  · intro cfg gemO oaiO c t r h
    simp [embed, cacheGet, h]
  · intro cfg gemO oaiO c t h
    simp only [embed, cacheGet, h]
    cases embedNoCache cfg (gemO t) (oaiO t) <;> rfl

/-- Witness for `embed_cache_amended`: a concrete stored entry is returned
on a hit. -/
theorem embed_cache_amended_witness :
    (⟨[(cacheKeyHash "q" "gemini", ⟨[5], "gemini", "m"⟩)], 1000⟩ :
        EmbeddingCache).entries.lookup (cacheKeyHash "q" "gemini")
      = some ⟨[5], "gemini", "m"⟩
    ∧ embed ⟨true, true, "gemini"⟩ (fun _ _ => .error "a") (fun _ _ => .error "b")
        ⟨[(cacheKeyHash "q" "gemini", ⟨[5], "gemini", "m"⟩)], 1000⟩ "q" =
      (.ok ⟨[5], "gemini", "m"⟩,
       { (⟨[(cacheKeyHash "q" "gemini", ⟨[5], "gemini", "m"⟩)], 1000⟩ : EmbeddingCache) with
         entries :=
          (⟨[(cacheKeyHash "q" "gemini", ⟨[5], "gemini", "m"⟩)], 1000⟩ :
              EmbeddingCache).entries.filter
              (fun e => e.1 ≠ cacheKeyHash "q" "gemini")
            ++ [(cacheKeyHash "q" "gemini", ⟨[5], "gemini", "m"⟩)] }) := by
  refine ⟨by decide, ?_⟩
  exact embed_cache_amended.1 ⟨true, true, "gemini"⟩ (fun _ _ => .error "a")
    (fun _ _ => .error "b") ⟨[(cacheKeyHash "q" "gemini", ⟨[5], "gemini", "m"⟩)], 1000⟩
    "q" ⟨[5], "gemini", "m"⟩ (by decide)

/-- Unfolding equation of `firstPerSource` on a non-empty list. -/
theorem firstPerSource_cons (c : ScoredChunk) (rest : List ScoredChunk) :
    firstPerSource (c :: rest) =
      c :: firstPerSource (rest.filter (fun d => d.source_id ≠ c.source_id)) := by
  rw [firstPerSource.eq_def]

/-- The seen-set filter equals the spec's first-chunk-per-source recursion on
the chunks whose source has not yet been seen. -/
theorem dedupe_seen_eq (l : List ScoredChunk) :
    ∀ seen : List Nat,
      dedupeBySourceFilter seen l =
        firstPerSource (l.filter (fun c => c.source_id ∉ seen)) := by
  induction l with
  | nil => intro seen; simp [dedupeBySourceFilter, firstPerSource]
  | cons r rest ih =>
    intro seen
    by_cases hm : r.source_id ∈ seen
    · simp [dedupeBySourceFilter, hm, List.filter_cons, ih]
    · have hfilter : (r :: rest).filter (fun c => c.source_id ∉ seen) =
          r :: rest.filter (fun c => c.source_id ∉ seen) := by
        simp [List.filter_cons, hm]
      have hfix : (rest.filter (fun c => c.source_id ∉ seen)).filter
          (fun d => d.source_id ≠ r.source_id) =
          rest.filter (fun c => c.source_id ∉ r.source_id :: seen) := by
        rw [List.filter_filter]
        apply List.filter_congr
        intro x _
        by_cases h1 : x.source_id = r.source_id <;>
          by_cases h2 : x.source_id ∈ seen <;> simp [h1, h2, List.mem_cons]
      calc dedupeBySourceFilter seen (r :: rest)
          = r :: dedupeBySourceFilter (r.source_id :: seen) rest := by
            simp [dedupeBySourceFilter, hm]
        _ = r :: firstPerSource (rest.filter
              (fun c => c.source_id ∉ r.source_id :: seen)) := by
            rw [ih]
        _ = firstPerSource ((r :: rest).filter (fun c => c.source_id ∉ seen)) := by
            rw [hfilter, firstPerSource_cons, hfix]

/-- `firstPerSource` preserves the original order: its output is a sublist of
its input. -/
theorem firstPerSource_sublist : ∀ l : List ScoredChunk, (firstPerSource l).Sublist l := by
  intro l
  induction l using firstPerSource.induct with
  | case1 => simp [firstPerSource]
  | case2 c rest ih =>
    rw [firstPerSource]
    exact (ih.trans (List.filter_sublist rest)).cons₂ c

/-- **C7.** With `dedupeBySource` unset or explicitly `true` (it is on unless
explicitly `false`), the post-filter of `search` retains exactly the first
(highest-ranked) chunk per source id in rank order; in particular ranked
chunks `[A¹, B², A³]` (by source) reduce to `[A¹, B²]`. -/
theorem search_dedupe_by_source_default :
    (∀ (o : SearchOptions) (l : List ScoredChunk),
      o.dedupeBySource = none ∨ o.dedupeBySource = some true →
      searchPostFilter o l = firstPerSource l)
    ∧ (∀ l : List ScoredChunk, dedupeBySourceFilter [] l = firstPerSource l)
    ∧ (∀ l : List ScoredChunk, (firstPerSource l).Sublist l)
    ∧ dedupeBySourceFilter []
        [⟨1, 100, 3⟩, ⟨2, 200, 2⟩, ⟨3, 100, 1⟩] =
        [⟨1, 100, 3⟩, ⟨2, 200, 2⟩] := by
  have hbase : ∀ l : List ScoredChunk, dedupeBySourceFilter [] l = firstPerSource l := by
    intro l
    rw [dedupe_seen_eq l []]
    congr 1
    rw [List.filter_eq_self]
    intro a _
    simp
  refine ⟨?_, hbase, firstPerSource_sublist, by rfl⟩
  intro o l h
  have : dedupeEnabled o = true := by
    rcases h with h | h <;> simp [dedupeEnabled, h]
  rw [searchPostFilter, if_pos this, hbase]

/-- Witness for `search_dedupe_by_source_default`: the default options object
(no `dedupeBySource` key) enables the per-source filter. -/
theorem search_dedupe_by_source_default_witness :
    ((⟨none, none, none⟩ : SearchOptions).dedupeBySource = none
      ∨ (⟨none, none, none⟩ : SearchOptions).dedupeBySource = some true)
    ∧ searchPostFilter ⟨none, none, none⟩ [⟨1, 100, 3⟩, ⟨2, 100, 2⟩] =
        firstPerSource [⟨1, 100, 3⟩, ⟨2, 100, 2⟩] := by
  exact ⟨Or.inl rfl,
    search_dedupe_by_source_default.1 ⟨none, none, none⟩ [⟨1, 100, 3⟩, ⟨2, 100, 2⟩]
      (Or.inl rfl)⟩

/-- **C6.** The in-memory search path's sort is a stable descending sort by
similarity: the output is a permutation of the scored chunks, pairwise
descending, chunks of equal similarity keep their original relative order,
and on similarities `[0.9, 0.5, 0.9]` the two `0.9` chunks come first in
their original order. -/
theorem search_sort_desc_stable :
    (∀ l : List ScoredChunk,
      (sortBySimilarity l).Perm l
      ∧ (sortBySimilarity l).Pairwise (fun a b => b.similarity ≤ a.similarity)
      ∧ ∀ q : ℚ, (sortBySimilarity l).filter (fun c => c.similarity = q) =
          l.filter (fun c => c.similarity = q))
    ∧ sortBySimilarity [⟨1, 100, 9/10⟩, ⟨2, 200, 5/10⟩, ⟨3, 300, 9/10⟩] =
        [⟨1, 100, 9/10⟩, ⟨3, 300, 9/10⟩, ⟨2, 200, 5/10⟩] := by
  have htrans : ∀ a b c : ScoredChunk,
      decide (b.similarity ≤ a.similarity) = true →
      decide (c.similarity ≤ b.similarity) = true →
      decide (c.similarity ≤ a.similarity) = true := by
    intro a b c h1 h2
    simp only [decide_eq_true_eq] at *
    exact h2.trans h1
  have htotal : ∀ a b : ScoredChunk,
      (decide (b.similarity ≤ a.similarity) || decide (a.similarity ≤ b.similarity)) = true := by
    intro a b
    simp only [Bool.or_eq_true, decide_eq_true_eq]
    exact le_total _ _
  constructor
  · intro l
    refine ⟨List.mergeSort_perm l _, ?_, ?_⟩
    · exact (List.sorted_mergeSort htrans htotal l).imp (fun h => by simpa using h)
    · intro q
      have hsubl : List.Sublist (l.filter (fun c => c.similarity = q)) l :=
        List.filter_sublist l
      have hpair : (l.filter (fun c => c.similarity = q)).Pairwise
          (fun a b => decide (b.similarity ≤ a.similarity) = true) := by
        apply List.pairwise_of_forall_mem_list
        intro a ha b hb
        have ha' := (List.mem_filter.mp ha).2
        have hb' := (List.mem_filter.mp hb).2
        simp only [decide_eq_true_eq] at ha' hb' ⊢
        rw [ha', hb']
      have hms := List.sublist_mergeSort htrans htotal hpair hsubl
      have hall : ∀ a ∈ l.filter (fun c => c.similarity = q),
          (fun c : ScoredChunk => decide (c.similarity = q)) a = true :=
        fun a ha => (List.mem_filter.mp ha).2
      have h1 : (l.filter (fun c => c.similarity = q)).filter
          (fun c => c.similarity = q) = l.filter (fun c => c.similarity = q) :=
        List.filter_eq_self.mpr hall
      have h2 := hms.filter (fun c : ScoredChunk => decide (c.similarity = q))
      rw [h1] at h2
      have hperm := (List.mergeSort_perm l
        (fun a b => decide (b.similarity ≤ a.similarity))).filter
        (fun c : ScoredChunk => decide (c.similarity = q))
      have hlen : (l.filter (fun c => c.similarity = q)).length =
          ((l.mergeSort (fun a b => decide (b.similarity ≤ a.similarity))).filter
            (fun c => c.similarity = q)).length := hperm.length_eq.symm
      exact (h2.eq_of_length hlen).symm
  · simp [sortBySimilarity, List.mergeSort]
    norm_num

/-- On a successful `embedBatch`, every single embedding succeeded. -/
theorem embedBatch_ok_forall (f : String → Except String EmbedResult) :
    ∀ (l : List String) (rs : List EmbedResult),
      embedBatch f l = .ok rs → ∀ t ∈ l, ∃ r, f t = .ok r := by
  intro l
  induction l with
  | nil => simp
  | cons a l ih =>
    intro rs h t ht
    rw [embedBatch] at h
    cases hfa : f a with
    | error e =>
      rw [hfa] at h
      exact absurd h (by simp)
    | ok b =>
      rw [hfa] at h
      cases hrest : embedBatch f l with
      | error e =>
        rw [hrest] at h
        exact absurd h (by simp)
      | ok bs =>
        rcases List.mem_cons.mp ht with rfl | ht2
        · exact ⟨b, hfa⟩
        · exact ih bs hrest t ht2

/-- **C2.** All-or-nothing embedding: if embedding any chunk of the
extracted content fails, `ingest` returns an error with the database
unchanged and no insert events; and on embedding success, the event trace
shows the single batch embedding call strictly before the source and chunk
inserts — every chunk is embedded before any persistence begins. -/
theorem ingest_embed_all_or_nothing (now : Nat) (hash : String → String)
    (ext : Extracted) (emb : String → Except String EmbedResult)
    (opts : ChunkOptions) (db : Db)
    (hnodup : sourceExists hash db ext.url ext.content = none) :
    ((∃ t ∈ (chunkText ext.content.data opts).map String.mk, ∃ er, emb t = .error er) →
      ∃ e, ingest now false hash (.ok ext) emb opts ⟨none, db⟩ =
        (.error e, ⟨none, db⟩,
         [.lockWrite, .extractCall, .chunkCall,
          .embedBatchCall ((chunkText ext.content.data opts).map String.mk),
          .lockRemove]))
    ∧ (∀ rs, embedBatch emb ((chunkText ext.content.data opts).map String.mk) = .ok rs →
        ingest now false hash (.ok ext) emb opts ⟨none, db⟩ =
          (.ok (.success db.nextId ext.title ext.sourceType
                  ((chunkText ext.content.data opts).map String.mk).length),
           ⟨none,
            insertChunks
              (insertSource hash db ext.url ext.title ext.sourceType ext.content).2
              db.nextId (((chunkText ext.content.data opts).map String.mk).zip rs)⟩,
           [.lockWrite, .extractCall, .chunkCall,
            .embedBatchCall ((chunkText ext.content.data opts).map String.mk),
            .insertSourceRow, .insertChunkRows, .lockRemove])) := by
  constructor
  · rintro ⟨t, ht, er, her⟩
    cases hb : embedBatch emb ((chunkText ext.content.data opts).map String.mk) with
    | ok rs =>
      exfalso
      obtain ⟨r, hr⟩ := embedBatch_ok_forall emb _ rs hb t ht
      rw [her] at hr
      exact Except.noConfusion hr
    | error e =>
      exact ⟨e, by simp [ingest, acquireLock, releaseLock, hnodup, hb]⟩
  · intro rs h
    simp [ingest, acquireLock, releaseLock, hnodup, h, insertSource]

/-- Witness for `ingest_embed_all_or_nothing`: a failing embedder aborts a
fresh single-chunk ingest with nothing written. -/
theorem ingest_embed_all_or_nothing_witness :
    sourceExists (fun _ => "h") ⟨[], [], 0⟩ "" "hi there." = none
    ∧ (∃ t ∈ (chunkText ("hi there." : String).data ⟨none, none, none⟩).map String.mk,
        ∃ er, (fun _ : String => (.error "boom" : Except String EmbedResult)) t = .error er)
    ∧ ∃ e, ingest 0 false (fun _ => "h") (.ok ⟨"", "t", "hi there.", "e", "text"⟩)
        (fun _ => .error "boom") ⟨none, none, none⟩ ⟨none, ⟨[], [], 0⟩⟩ =
        (.error e, ⟨none, ⟨[], [], 0⟩⟩,
         [.lockWrite, .extractCall, .chunkCall,
          .embedBatchCall ((chunkText ("hi there." : String).data ⟨none, none, none⟩).map String.mk),
          .lockRemove]) := by
  have hmem : ("hi there." : String) ∈
      (chunkText ("hi there." : String).data ⟨none, none, none⟩).map String.mk := by
    decide
  refine ⟨by decide, ⟨"hi there.", hmem, "boom", rfl⟩, ?_⟩
  exact (ingest_embed_all_or_nothing 0 (fun _ => "h") ⟨"", "t", "hi there.", "e", "text"⟩
    (fun _ => .error "boom") ⟨none, none, none⟩ ⟨[], [], 0⟩ (by decide)).1
    ⟨"hi there.", hmem, "boom", rfl⟩

/-- Trimming never lengthens a string. -/
theorem jsTrim_length_le (l : List Char) : (jsTrim l).length ≤ l.length := by
  unfold jsTrim
  rw [List.length_reverse]
  calc ((l.dropWhile Char.isWhitespace).reverse.dropWhile Char.isWhitespace).length
      ≤ (l.dropWhile Char.isWhitespace).reverse.length :=
        (List.dropWhile_sublist _).length_le
    _ = (l.dropWhile Char.isWhitespace).length := List.length_reverse _
    _ ≤ l.length := (List.dropWhile_sublist _).length_le

/-- The overlap text accumulated by `overlapLoop` never exceeds `overlap`. -/
theorem overlapLoop_fst_le (overlap : Nat) :
    ∀ (rev : List (List Char)) (ovText : List Char) (ovSents : List (List Char)),
      ovText.length ≤ overlap →
      (overlapLoop overlap rev ovText ovSents).1.length ≤ overlap := by
  intro rev
  induction rev with
  | nil => intro ovText ovSents h; exact h
  | cons s r ih =>
    intro ovText ovSents h
    simp only [overlapLoop]
    by_cases hc : (s ++ ' ' :: ovText).length ≤ overlap
    · simp only [if_pos hc]
      exact ih _ _ hc
    · simp only [if_neg hc]
      exact h

/-- `x || d` is positive whenever the default is. -/
theorem jsOr_pos (o : Option Nat) (d : Nat) (hd : 0 < d) : 0 < jsOr o d := by
  cases o with
  | none => exact hd
  | some n =>
    by_cases h : n = 0
    · simpa [jsOr, h] using hd
    · simpa [jsOr, h] using Nat.pos_of_ne_zero h

/-- One loop iteration preserves the size invariant, provided the incoming
sentence is within `chunkSize`. -/
theorem chunkStep_inv (cs ov mi : Nat) (st : ChunkState) (s : List Char)
    (hs : s.length ≤ cs) (h : ChunkInv (cs + ov) st) :
    ChunkInv (cs + ov) (chunkStep cs ov mi st s) := by
  obtain ⟨h1, h2⟩ := h
  unfold chunkStep
  by_cases hb : st.currentChunk.length + s.length + 1 > cs
  · simp only [if_pos hb]
    constructor
    · intro c hc
      simp only at hc
      by_cases hp : st.currentChunk.length ≥ mi
      · simp only [if_pos hp] at hc
        rcases List.mem_append.mp hc with hc | hc
        · exact h1 c hc
        · rw [List.mem_singleton] at hc
          rw [hc]
          exact le_trans (jsTrim_length_le _) h2
      · simp only [if_neg hp] at hc
        exact h1 c hc
    · simp only [List.length_append]
      have hov := overlapLoop_fst_le ov st.currentSentences.reverse [] [] (by simp)
      omega
  · simp only [if_neg hb]
    push_neg at hb
    constructor
    · exact h1
    · by_cases he : st.currentChunk = []
      · simp only [he, if_pos, List.nil_append, List.length_append]
        simp only [he, List.length_nil] at hb
        omega
      · simp only [if_neg he, List.length_append, List.length_cons]
        omega

/-- The whole loop preserves the size invariant when every sentence is
within `chunkSize`. -/
theorem chunkFold_inv (cs ov mi : Nat) :
    ∀ (sents : List (List Char)) (st : ChunkState),
      (∀ s ∈ sents, s.length ≤ cs) → ChunkInv (cs + ov) st →
      ChunkInv (cs + ov) (sents.foldl (chunkStep cs ov mi) st) := by
  intro sents
  induction sents with
  | nil => intro st _ h; exact h
  | cons s rest ih =>
    intro st hs h
    rw [List.foldl_cons]
    exact ih _ (fun t ht => hs t (List.mem_cons_of_mem _ ht))
      (chunkStep_inv cs ov mi st s (hs s (List.mem_cons_self _ _)) h)

/-- Appending `x` to the last chunk raises the length bound by at most
`x.length`'s bound. -/
theorem appendToLast_bound (B Bx : Nat) :
    ∀ (l : List (List Char)) (x : List Char),
      (∀ c ∈ l, c.length ≤ B) → x.length ≤ Bx →
      ∀ c ∈ appendToLast l x, c.length ≤ B + Bx := by
  intro l
  induction l with
  | nil =>
    intro x _ hx c hc
    simp only [appendToLast, List.mem_singleton] at hc
    rw [hc]
    omega
  | cons a tl ih =>
    intro x hl hx c hc
    cases tl with
    | nil =>
      simp only [appendToLast, List.mem_singleton] at hc
      rw [hc, List.length_append]
      have := hl a (List.mem_singleton_self a)
      omega
    | cons b tl2 =>
      rw [appendToLast] at hc
      rcases List.mem_cons.mp hc with rfl | hc2
      · exact le_trans (hl c (List.mem_cons_self _ _)) (Nat.le_add_right _ _)
      · exact ih x (fun d hd => hl d (List.mem_cons_of_mem _ hd)) hx c hc2

/-- Finalisation keeps every chunk within `bound + minChunkSize`. -/
theorem chunkFinalize_bound (B mi : Nat) (st : ChunkState)
    (h : ChunkInv B st) :
    ∀ c ∈ chunkFinalize mi st, c.length ≤ B + mi := by
  obtain ⟨h1, h2⟩ := h
  unfold chunkFinalize
  by_cases hge : st.currentChunk.length ≥ mi
  · simp only [if_pos hge]
    intro c hc
    rcases List.mem_append.mp hc with hc | hc
    · exact le_trans (h1 c hc) (Nat.le_add_right _ _)
    · rw [List.mem_singleton] at hc
      rw [hc]
      exact le_trans (le_trans (jsTrim_length_le _) h2) (Nat.le_add_right _ _)
  · simp only [if_neg hge]
    by_cases hne : st.chunks ≠ [] ∧ st.currentChunk.length > 0
    · simp only [if_pos hne]
      intro c hc
      refine appendToLast_bound B mi st.chunks _ h1 ?_ c hc
      have ht := jsTrim_length_le st.currentChunk
      simp only [List.length_cons]
      omega
    · simp only [if_neg hne]
      by_cases hpos : st.currentChunk.length > 0
      · simp only [if_pos hpos]
        intro c hc
        rcases List.mem_append.mp hc with hc | hc
        · exact le_trans (h1 c hc) (Nat.le_add_right _ _)
        · rw [List.mem_singleton] at hc
          rw [hc]
          exact le_trans (le_trans (jsTrim_length_le _) h2) (Nat.le_add_right _ _)
      · simp only [if_neg hpos]
        intro c hc
        exact le_trans (h1 c hc) (Nat.le_add_right _ _)

/-- **C5, counterexample.** With `chunkSize = 10`, `overlap = 8`,
`minChunkSize = 1`, the text `"aaa. bbb. ccccc. d."` has no sentence longer
than 10 characters, yet `chunkText` emits the chunk `"bbb. ccccc."` of
length 11: a chunk exceeding `chunkSize` that is *not* a single oversized
sentence (it is overlap carry-over plus the next sentence). -/
theorem chunkText_oversize_counterexample :
    ¬ (∀ c ∈ chunkText "aaa. bbb. ccccc. d.".data ⟨some 10, some 8, some 1⟩,
        c.length ≤ 10 ∨ ∃ s ∈ splitSentences (cleanText "aaa. bbb. ccccc. d.".data),
          jsTrim s = c ∧ 10 < s.length)
    ∧ "bbb. ccccc.".data ∈ chunkText "aaa. bbb. ccccc. d.".data ⟨some 10, some 8, some 1⟩
    ∧ 10 < ("bbb. ccccc.".data).length
    ∧ (∀ s ∈ splitSentences (cleanText "aaa. bbb. ccccc. d.".data), s.length ≤ 10) := by
  refine ⟨by decide, by decide, by decide, by decide⟩

/-- **C5, amended.** If every sentence of the cleaned text is within
`chunkSize`, then every chunk produced by `chunkText` has length at most
`chunkSize + overlap + minChunkSize`: a chunk may exceed `chunkSize` even
without an oversized sentence, because a new chunk is seeded with up to
`overlap` characters of carried-over whole sentences before the next
sentence is appended, and an undersized trailing fragment is merged into the
final chunk. -/
theorem chunkText_length_bound (text : List Char) (opts : ChunkOptions)
    (h : ∀ s ∈ splitSentences (cleanText text),
      s.length ≤ jsOr opts.chunkSize DEFAULT_CHUNK_SIZE) :
    ∀ c ∈ chunkText text opts,
      c.length ≤ jsOr opts.chunkSize DEFAULT_CHUNK_SIZE
        + jsOr opts.overlap DEFAULT_OVERLAP
        + jsOr opts.minChunkSize MIN_CHUNK_SIZE := by
  intro c hc
  unfold chunkText at hc
  by_cases hfit : (cleanText text).length ≤ jsOr opts.chunkSize DEFAULT_CHUNK_SIZE
  · simp only [if_pos hfit, List.mem_singleton] at hc
    rw [hc]
    omega
  · simp only [if_neg hfit] at hc
    have hinv := chunkFold_inv (jsOr opts.chunkSize DEFAULT_CHUNK_SIZE)
      (jsOr opts.overlap DEFAULT_OVERLAP) (jsOr opts.minChunkSize MIN_CHUNK_SIZE)
      (splitSentences (cleanText text)) ⟨[], [], []⟩ h
      ⟨by intro x hx; simp at hx, by simp⟩
    exact chunkFinalize_bound
      (jsOr opts.chunkSize DEFAULT_CHUNK_SIZE + jsOr opts.overlap DEFAULT_OVERLAP)
      (jsOr opts.minChunkSize MIN_CHUNK_SIZE) _ hinv c hc

/-- Witness for `chunkText_length_bound` at a concrete text and
configuration. -/
theorem chunkText_length_bound_witness :
    (∀ s ∈ splitSentences (cleanText "ab. cd. ef. gh. ij.".data), s.length ≤ 10)
    ∧ ∀ c ∈ chunkText "ab. cd. ef. gh. ij.".data ⟨some 10, some 8, some 1⟩,
        c.length ≤ 10 + 8 + 1 := by
  refine ⟨by decide, ?_⟩
  exact fun c hc =>
    chunkText_length_bound "ab. cd. ef. gh. ij.".data ⟨some 10, some 8, some 1⟩
      (by decide) c hc

/-- The sum of squares of a real vector is nonnegative. -/
theorem sumSq_nonneg (a : List ℝ) : 0 ≤ sumSq a := by
  apply List.sum_nonneg
  intro x hx
  rcases List.mem_map.mp hx with ⟨y, _, rfl⟩
  exact mul_self_nonneg y

/-- Cauchy–Schwarz for the list dot product, in squared form. -/
theorem dotL_sq_le (a : List ℝ) : ∀ b : List ℝ, (dotL a b) ^ 2 ≤ sumSq a * sumSq b := by
  induction a with
  | nil =>
    intro b
    simp [dotL, sumSq]
  | cons x xs ih =>
    intro b
    cases b with
    | nil => simp [dotL, sumSq]
    | cons y ys =>
      have hxs := sumSq_nonneg xs
      have hys := sumSq_nonneg ys
      have hih := ih ys
      simp only [dotL, sumSq, List.zipWith_cons_cons, List.map_cons, List.sum_cons] at *
      by_cases hy0 : (List.map (fun z => z * z) ys).sum = 0
      · rw [show (List.map (fun x => x * x) ys) = (List.map (fun z => z * z) ys) from rfl,
          hy0] at hih ⊢
        have hd0 : (List.zipWith (fun x y => x * y) xs ys).sum = 0 := by
          nlinarith [sq_nonneg (List.zipWith (fun x y => x * y) xs ys).sum]
        rw [hd0]
        nlinarith [mul_nonneg hxs (sq_nonneg y)]
      · have hypos : 0 < (List.map (fun x => x * x) ys).sum :=
          lt_of_le_of_ne hys (Ne.symm hy0)
        nlinarith [sq_nonneg (x * (List.map (fun x => x * x) ys).sum -
            y * (List.zipWith (fun x y => x * y) xs ys).sum),
          mul_le_mul_of_nonneg_left hih (sq_nonneg y),
          hypos, hxs, hys, mul_nonneg hxs hys,
          sq_nonneg (x * y + (List.zipWith (fun x y => x * y) xs ys).sum),
          sq_nonneg (x * y - (List.zipWith (fun x y => x * y) xs ys).sum)]

/-- **C10.** `cosineSimilarity` returns 0 on length mismatch and whenever
either Euclidean norm is 0; it is symmetric; it is 1 on `(v, v)` for nonzero
`v`; and for same-length vectors of nonzero norm it is the dot product over
the product of the Euclidean norms and lies in `[-1, 1]`. -/
theorem cosineSimilarity_spec :
    (∀ a b : List ℝ, a.length ≠ b.length → cosineSimilarity Real.sqrt a b = 0)
    ∧ (∀ a b : List ℝ, Real.sqrt (sumSq a) = 0 ∨ Real.sqrt (sumSq b) = 0 →
        cosineSimilarity Real.sqrt a b = 0)
    ∧ (∀ a b : List ℝ, cosineSimilarity Real.sqrt a b = cosineSimilarity Real.sqrt b a)
    ∧ (∀ v : List ℝ, (∃ x ∈ v, x ≠ 0) → cosineSimilarity Real.sqrt v v = 1)
    ∧ (∀ a b : List ℝ, a.length = b.length → sumSq a ≠ 0 → sumSq b ≠ 0 →
        cosineSimilarity Real.sqrt a b =
          dotL a b / (Real.sqrt (sumSq a) * Real.sqrt (sumSq b))
        ∧ -1 ≤ cosineSimilarity Real.sqrt a b ∧ cosineSimilarity Real.sqrt a b ≤ 1) := by
  refine ⟨?_, ?_, ?_, ?_, ?_⟩
  · intro a b h
    simp [cosineSimilarity, h]
  · intro a b h
    unfold cosineSimilarity
    by_cases hlen : a.length ≠ b.length
    · simp [hlen]
    · have hden : Real.sqrt ((a.map fun x => x * x).sum) *
          Real.sqrt ((b.map fun x => x * x).sum) = 0 := by
        rcases h with h | h <;>
          rw [show ((a.map fun x => x * x).sum) = sumSq a from rfl,
            show ((b.map fun x => x * x).sum) = sumSq b from rfl] <;>
          simp [h]
      simp [hlen, hden]
  · intro a b
    by_cases h : a.length = b.length
    · unfold cosineSimilarity
      simp only [h, ne_eq, not_true_eq_false, if_false]
      rw [List.zipWith_comm_of_comm _ mul_comm a b, mul_comm (Real.sqrt _)]
    · have h2 : b.length ≠ a.length := fun hh => h hh.symm
      simp [cosineSimilarity, h, h2]
  · rintro v ⟨x, hx, hx0⟩
    have hS : 0 < sumSq v := by
      have hmem : x * x ∈ v.map (fun z => z * z) := List.mem_map_of_mem _ hx
      have hle : x * x ≤ sumSq v :=
        List.single_le_sum (by
          intro y hy
          rcases List.mem_map.mp hy with ⟨z, _, rfl⟩
          exact mul_self_nonneg z) _ hmem
      exact lt_of_lt_of_le (mul_self_pos.mpr hx0) hle
    have hdot : (List.zipWith (fun x y => x * y) v v).sum = sumSq v := by
      rw [List.zipWith_same]
      rfl
    have hden : Real.sqrt (sumSq v) * Real.sqrt (sumSq v) = sumSq v :=
      Real.mul_self_sqrt (sumSq_nonneg v)
    unfold cosineSimilarity
    simp only [ne_eq, not_true_eq_false, if_false]
    rw [show ((v.map fun x => x * x).sum) = sumSq v from rfl]
    rw [hden, hdot]
    simp [hS.ne', div_self hS.ne']
  · intro a b hlen ha hb
    have hsa : 0 < Real.sqrt (sumSq a) :=
      Real.sqrt_pos.mpr (lt_of_le_of_ne (sumSq_nonneg a) (Ne.symm ha))
    have hsb : 0 < Real.sqrt (sumSq b) :=
      Real.sqrt_pos.mpr (lt_of_le_of_ne (sumSq_nonneg b) (Ne.symm hb))
    have hdenpos : 0 < Real.sqrt (sumSq a) * Real.sqrt (sumSq b) := mul_pos hsa hsb
    have heq : cosineSimilarity Real.sqrt a b =
        dotL a b / (Real.sqrt (sumSq a) * Real.sqrt (sumSq b)) := by
      unfold cosineSimilarity
      simp only [hlen, ne_eq, not_true_eq_false, if_false]
      rw [show ((a.map fun x => x * x).sum) = sumSq a from rfl,
        show ((b.map fun x => x * x).sum) = sumSq b from rfl]
      simp only [hdenpos.ne', if_false, ite_false]
      rfl
    have habs : |dotL a b| ≤ Real.sqrt (sumSq a) * Real.sqrt (sumSq b) := by
      rw [← Real.sqrt_sq_eq_abs, ← Real.sqrt_mul (sumSq_nonneg a)]
      exact Real.sqrt_le_sqrt (dotL_sq_le a b)
    have hableq : |dotL a b / (Real.sqrt (sumSq a) * Real.sqrt (sumSq b))| ≤ 1 := by
      rw [abs_div, abs_of_pos hdenpos]
      exact div_le_one_of_le₀ habs hdenpos.le
    obtain ⟨hlo, hhi⟩ := abs_le.mp hableq
    exact ⟨heq, by rw [heq]; exact hlo, by rw [heq]; exact hhi⟩

/-- Witness for `cosineSimilarity_spec` at concrete vectors. -/
theorem cosineSimilarity_spec_witness :
    (([1, 0] : List ℝ).length ≠ ([1] : List ℝ).length
      ∧ cosineSimilarity Real.sqrt [1, 0] [1] = 0)
    ∧ ((∃ x ∈ ([1, 0] : List ℝ), x ≠ 0)
      ∧ cosineSimilarity Real.sqrt [1, 0] [1, 0] = 1) := by
  constructor
  · exact ⟨by simp, cosineSimilarity_spec.1 [1, 0] [1] (by simp)⟩
  · exact ⟨⟨1, by simp⟩, cosineSimilarity_spec.2.2.2.1 [1, 0] ⟨1, by simp⟩⟩

end RagModule
